import Mathlib

/-!
Verification of the MERFISH pixel-decoding and spot-extraction pipeline
described by the repository's specification.  The repository itself holds
only the notebook that configures and invokes the pipeline
(src/notebooks/MERFISH.ipynb); the pipeline's own code (the starfish
library: DetectPixels.PixelSpotDecoder, Codebook.lookup_nearest, the
connected-component labeler and the region filter) is not part of the
repository, so every definition below that embeds one of those stages is
modelled from the specification's words.  Scalars of the imaging data are
modelled as real numbers; targets are modelled as natural-number ids with
0 reserved for the background target; the spatial grid is one z-plane
(the notebook's data has a single z-plane), indexed by (y, x) pairs.
-/

namespace Starfish

/-- A position in one z-plane of the image: a (y, x) pair. -/
abbrev Pos := ℕ × ℕ

/-- The reserved background target id. -/
def backgroundTarget : ℕ := 0

/-- Modelled from the spec: one codebook entry, pairing a target id with its
codeword (a vector of length rounds times channels).  The codebook data
structure lives in the starfish library, which is not in the repository. -/
structure CodeEntry where
  target : ℕ
  word : List ℝ

/-- Modelled from the spec: the decode configuration of
DetectPixels.PixelSpotDecoder — norm order, distance threshold, magnitude
threshold and the area bounds (max area may be infinite, as in the
notebook's max_area = np.inf). -/
structure DecodeConfig where
  normOrder : ℕ
  distanceThreshold : ℝ
  magnitudeThreshold : ℝ
  minArea : ℕ
  maxArea : ℕ∞

/-- Modelled from the spec: the order-n magnitude (L_n norm) of a pixel
vector, the sum of n-th powers of absolute components raised to 1/n. -/
noncomputable def magnitude (n : ℕ) (v : List ℝ) : ℝ :=
  ((v.map fun a => |a| ^ n).sum) ^ ((n : ℝ)⁻¹)

/-- Modelled from the spec: normalization of a vector by its own order-n
magnitude (divide every component by the magnitude). -/
noncomputable def normalize (n : ℕ) (v : List ℝ) : List ℝ :=
  v.map fun a => a / magnitude n v

/-- Modelled from the spec: the Euclidean distance between two vectors
(the notebook configures metric = euclidean). -/
noncomputable def euclideanDist (u w : List ℝ) : ℝ :=
  Real.sqrt ((List.zipWith (fun a b => (a - b) ^ 2) u w).sum)

/-- Modelled from the spec: the candidate (target, distance) pairs for a
normalized pixel vector — the distance to every codeword's norm-matching
(normalized) representation, in codebook enumeration order. -/
noncomputable def candidates (n : ℕ) (cb : List CodeEntry) (u : List ℝ) :
    List (ℕ × ℝ) :=
  cb.map fun e => (e.target, euclideanDist u (normalize n e.word))

/-- Modelled from the spec: select the minimum-distance candidate, ties
broken in favour of the earlier (first-encountered) candidate. -/
noncomputable def bestOf : List (ℕ × ℝ) → Option (ℕ × ℝ)
  | [] => none
  | x :: rest =>
    match bestOf rest with
    | none => some x
    | some b => if x.2 ≤ b.2 then some x else some b

/-- Specification-side description of the tie-break rule: the first
candidate in enumeration order whose distance is less than or equal to
every candidate's distance. -/
noncomputable def firstMin (l : List (ℕ × ℝ)) : Option (ℕ × ℝ) :=
  l.find? fun p => decide (∀ q ∈ l, p.2 ≤ q.2)

/-- Modelled from the spec: Codebook.lookup_nearest — the minimum-distance
target and that distance, for a normalized pixel vector. -/
noncomputable def lookupNearest (n : ℕ) (cb : List CodeEntry) (u : List ℝ) :
    ℕ × ℝ :=
  (bestOf (candidates n cb u)).getD (backgroundTarget, 0)

/-- The per-pixel result of the decoder: nearest target, distance to it,
and whether the pixel passes both thresholds. -/
structure DecodedPixel where
  target : ℕ
  distance : ℝ
  passed : Bool

/-- Modelled from the spec: the per-pixel decode step of
DetectPixels.PixelSpotDecoder.  If the order-n magnitude is below the
magnitude threshold, mark failed with the background target and skip the
distance computation; otherwise normalize the vector, look up the nearest
codeword, and mark passed iff the distance is at most the distance
threshold. -/
noncomputable def decodeOne (cfg : DecodeConfig) (cb : List CodeEntry)
    (v : List ℝ) : DecodedPixel :=
  if magnitude cfg.normOrder v < cfg.magnitudeThreshold then
    ⟨backgroundTarget, 0, false⟩
  else
    let r := lookupNearest cfg.normOrder cb (normalize cfg.normOrder v)
    ⟨r.1, r.2, decide (r.2 ≤ cfg.distanceThreshold)⟩

/-- All grid positions of a Y-by-X z-plane, in raster (row-major) order. -/
def positions (Y X : ℕ) : List Pos :=
  (List.range Y).flatMap fun y => (List.range X).map fun x => (y, x)

/-- Whether a position lies inside the Y-by-X grid. -/
def inGridb (Y X : ℕ) (p : Pos) : Bool :=
  decide (p.1 < Y) && decide (p.2 < X)

/-- The 4-connectivity neighbours of a position (the labeler is modelled
with 4-connectivity on one z-plane, a fixed, documented choice as the spec
requires). -/
def neighbors (p : Pos) : List Pos :=
  [(p.1 + 1, p.2), (p.1, p.2 + 1)]
    ++ (if p.1 = 0 then [] else [(p.1 - 1, p.2)])
    ++ (if p.2 = 0 then [] else [(p.1, p.2 - 1)])

/-- Modelled from the spec: one growth step of the connected-component
flood fill — add every in-grid neighbour of the current set that carries
the same target and is not already in the set. -/
def grow (Y X : ℕ) (g : Pos → Option ℕ) (t : ℕ) (S : List Pos) : List Pos :=
  S ++ ((S.flatMap neighbors).filter fun q =>
    inGridb Y X q && (g q == some t) && decide (q ∉ S)).dedup

/-- Iterate the growth step a given number of times. -/
def compAux (Y X : ℕ) (g : Pos → Option ℕ) (t : ℕ) :
    ℕ → List Pos → List Pos
  | 0, S => S
  | fuel + 1, S => compAux Y X g t fuel (grow Y X g t S)

/-- Modelled from the spec: the connected component of a seed position
among passing pixels sharing target t, computed by flood fill (Y times X
growth steps always reach the fixed point on a Y-by-X grid). -/
def comp (Y X : ℕ) (g : Pos → Option ℕ) (t : ℕ) (p : Pos) : List Pos :=
  compAux Y X g t (Y * X) [p]

/-- A labeled region: its positive label id, its target, and the list of
member pixels. -/
structure LRegion where
  label : ℕ
  target : ℕ
  pixels : List Pos
deriving DecidableEq, Inhabited

/-- The label carried by a position under a region list: the label of the
first region containing it, or 0 (background) when none does. -/
def labelOf (rs : List LRegion) (p : Pos) : ℕ :=
  match rs.find? fun r => decide (p ∈ r.pixels) with
  | some r => r.label
  | none => 0

/-- Whether no region of the list contains the position. -/
def isUnlabeled (rs : List LRegion) (p : Pos) : Bool :=
  rs.all fun r => decide (p ∉ r.pixels)

/-- Modelled from the spec: one step of the connected-component labeler.
When the raster scan reaches a passing, not-yet-labeled pixel, its
connected component is assigned the next sequential label; pixels already
labeled are never relabeled. -/
def labelStep (Y X : ℕ) (g : Pos → Option ℕ) (rs : List LRegion) (p : Pos) :
    List LRegion :=
  match g p with
  | none => rs
  | some t =>
    if isUnlabeled rs p then
      rs ++ [⟨rs.length + 1, t, (comp Y X g t p).filter fun q => isUnlabeled rs q⟩]
    else rs

/-- Modelled from the spec: the connected-component labeler — scan the
grid in raster order and label each new component with the next positive
integer.  The input grid maps each position to some target id when the
pixel passed decoding, and none when it failed. -/
def labelRegions (Y X : ℕ) (g : Pos → Option ℕ) : List LRegion :=
  (positions Y X).foldl (labelStep Y X g) []

/-- Modelled from the spec: the area acceptance test of the region filter,
keep iff min_area ≤ area ≤ max_area (max_area may be infinite). -/
def keepArea (minA : ℕ) (maxA : ℕ∞) (area : ℕ) : Bool :=
  decide (minA ≤ area) && decide ((area : ℕ∞) ≤ maxA)

/-- Modelled from the spec: the regions retained by the area filter. -/
def retained (minA : ℕ) (maxA : ℕ∞) (rs : List LRegion) : List LRegion :=
  rs.filter fun r => keepArea minA maxA r.pixels.length

/-- One row of the emitted spot table: the region's label id, target and
area (pixel count). -/
structure SpotRecord where
  label : ℕ
  target : ℕ
  area : ℕ
deriving DecidableEq, Inhabited

/-- Modelled from the spec: the emitted spot table — one record per
retained region, in discovery order. -/
def spotTable (minA : ℕ) (maxA : ℕ∞) (rs : List LRegion) : List SpotRecord :=
  (retained minA maxA rs).map fun r => ⟨r.label, r.target, r.pixels.length⟩

/-- Modelled from the spec: the pruned label image — pixels of discarded
regions are zeroed out, pixels of retained regions keep their label. -/
def prunedLabelOf (minA : ℕ) (maxA : ℕ∞) (rs : List LRegion) (p : Pos) : ℕ :=
  labelOf (retained minA maxA rs) p

/-- Modelled from the spec: the notebook's area_lookup function
(src/notebooks/MERFISH.ipynb): label 0 maps to area 0 and label x maps to
the area of region_properties[x - 1], with no bounds check. -/
def area_lookup (props : List LRegion) (x : ℕ) : ℕ :=
  if x = 0 then 0 else (props.getD (x - 1) default).pixels.length

/-- Modelled from the spec: the per-pixel decoded grid feeding the
labeler — a passing pixel carries its decoded target, a failing pixel
carries none. -/
noncomputable def decodedGrid (cfg : DecodeConfig) (cb : List CodeEntry)
    (img : Pos → List ℝ) : Pos → Option ℕ :=
  fun p =>
    let d := decodeOne cfg cb (img p)
    if d.passed then some d.target else none

/-- Modelled from the spec: the full decode pass psd.run — decode every
pixel, label connected components, filter by area, and assemble the spot
table and the pruned label image. -/
noncomputable def pipelineRun (cfg : DecodeConfig) (cb : List CodeEntry)
    (Y X : ℕ) (img : Pos → List ℝ) : List SpotRecord × (Pos → ℕ) :=
  let rs := labelRegions Y X (decodedGrid cfg cb img)
  (spotTable cfg.minArea cfg.maxArea rs,
   fun p => prunedLabelOf cfg.minArea cfg.maxArea rs p)

/-- The structural invariant of the labeler's output: labels are the
positive integers 1, 2, ... in discovery order, the regions' pixel sets
are pairwise disjoint, and every region is a nonempty, duplicate-free set
of in-grid pixels. -/
def goodRegions (Y X : ℕ) (rs : List LRegion) : Prop :=
  (∀ i (hi : i < rs.length), (rs.get ⟨i, hi⟩).label = i + 1) ∧
  rs.Pairwise (fun r s => ∀ p ∈ r.pixels, p ∉ s.pixels) ∧
  ∀ r ∈ rs, r.pixels ≠ [] ∧ r.pixels.Nodup ∧ ∀ p ∈ r.pixels, p.1 < Y ∧ p.2 < X

/-- The state of the notebook's rescaling stage: the low_passed image
stack and the filtered_imgs stack (the deep copy being rescaled).  A
stack maps each (round, channel) selector to its image tile; tile values
are modelled as rationals. -/
structure ScaleState where
  low_passed : ℕ × ℕ → List ℚ
  filtered : ℕ × ℕ → List ℚ

/-- One iteration of the notebook's rescaling loop
(src/notebooks/MERFISH.ipynb): read the selector's slice from
filtered_imgs, divide it by that selector's scale factor, and write it
back to filtered_imgs; low_passed is not touched. -/
def rescaleStep (scale : ℕ × ℕ → ℚ) (st : ScaleState) (sel : ℕ × ℕ) :
    ScaleState :=
  { st with
    filtered := fun s =>
      if s = sel then (st.filtered sel).map (· / scale sel)
      else st.filtered s }

/-- The notebook's rescaling stage: deep-copy low_passed into
filtered_imgs, then loop over the selectors rescaling each slice of the
copy in place. -/
def rescaleRun (scale : ℕ × ℕ → ℚ) (low : ℕ × ℕ → List ℚ)
    (selectors : List (ℕ × ℕ)) : ScaleState :=
  selectors.foldl (rescaleStep scale) ⟨low, low⟩

/-! ### List and distance helper lemmas -/

lemma sum_map_div (l : List ℝ) (c : ℝ) :
    (l.map fun a => a / c).sum = l.sum / c := by
  induction l with
  | nil => simp
  | cons a l ih => simp [ih, add_div]

lemma zipWith_self_sq_sum (u : List ℝ) :
    (List.zipWith (fun a b => (a - b) ^ 2) u u).sum = 0 := by
  induction u with
  | nil => simp
  | cons a u ih => simp [ih]

lemma euclideanDist_self (u : List ℝ) : euclideanDist u u = 0 := by
  simp [euclideanDist, zipWith_self_sq_sum]

lemma euclideanDist_nonneg (u w : List ℝ) : 0 ≤ euclideanDist u w :=
  Real.sqrt_nonneg _

/-! ### The tie-break rule of bestOf -/

lemma find?_of_stronger {α : Type} {p q : α → Bool} {l : List α} {b : α}
    (h : l.find? p = some b) (imp : ∀ a, q a = true → p a = true)
    (hb : q b = true) : l.find? q = some b := by
  induction l with
  | nil => simp at h
  | cons a l ih =>
    by_cases hqa : q a = true
    · have hpa := imp a hqa
      rw [List.find?_cons_of_pos _ hpa] at h
      rw [List.find?_cons_of_pos _ hqa]
      exact h
    · rw [List.find?_cons_of_neg _ (by simpa using hqa)]
      by_cases hpa : p a = true
      · rw [List.find?_cons_of_pos _ hpa] at h
        cases h
        exact absurd hb hqa
      · rw [List.find?_cons_of_neg _ (by simpa using hpa)] at h
        exact ih h

lemma bestOf_eq_none {l : List (ℕ × ℝ)} (h : bestOf l = none) : l = [] := by
  cases l with
  | nil => rfl
  | cons x rest =>
    exfalso
    cases hb : bestOf rest with
    | none => simp [bestOf, hb] at h
    | some b =>
      by_cases hx : x.2 ≤ b.2 <;> simp [bestOf, hb, hx] at h

lemma bestOf_eq_firstMin : ∀ l : List (ℕ × ℝ), bestOf l = firstMin l := by
  intro l
  induction l with
  | nil => rfl
  | cons x rest ih =>
    cases hb : bestOf rest with
    | none =>
      have hrest : rest = [] := bestOf_eq_none hb
      subst hrest
      have hx : (decide (∀ q ∈ [x], x.2 ≤ q.2)) = true := by
        simp
      simp [bestOf, firstMin, List.find?_cons_of_pos _ hx]
    | some b =>
      have hfm : firstMin rest = some b := ih ▸ hb
      have hbmem : b ∈ rest := List.mem_of_find?_eq_some hfm
      have hble : ∀ q ∈ rest, b.2 ≤ q.2 := by
        have := List.find?_some hfm
        simpa using this
      by_cases hx : x.2 ≤ b.2
      · have hpx : (decide (∀ q ∈ x :: rest, x.2 ≤ q.2)) = true := by
          simp only [decide_eq_true_eq]
          intro q hq
          rcases List.mem_cons.mp hq with h | h
          · exact h ▸ le_refl _
          · exact hx.trans (hble q h)
        have hfind : List.find? (fun p => decide (∀ q ∈ x :: rest, p.2 ≤ q.2))
            (x :: rest) = some x := List.find?_cons_of_pos _ hpx
        simp [bestOf, hb, hx, firstMin, hfind]
      · push_neg at hx
        have hpx : (decide (∀ q ∈ x :: rest, x.2 ≤ q.2)) = false := by
          simp only [decide_eq_false_iff_not, not_forall]
          exact ⟨b, List.mem_cons_of_mem _ hbmem, not_le.mpr hx⟩
        have hgoal : List.find? (fun p => decide (∀ q ∈ x :: rest, p.2 ≤ q.2))
            (x :: rest) = some b := by
          rw [List.find?_cons_of_neg _ (by simp [hpx])]
          refine find?_of_stronger hfm ?_ ?_
          · intro a ha
            simp only [decide_eq_true_eq] at ha ⊢
            intro q hq
            exact ha q (List.mem_cons_of_mem _ hq)
          · simp only [decide_eq_true_eq]
            intro q hq
            rcases List.mem_cons.mp hq with h | h
            · exact h ▸ hx.le
            · exact hble q h
        simp [bestOf, hb, not_le.mpr hx, firstMin, hgoal]

lemma bestOf_isSome {l : List (ℕ × ℝ)} (h : l ≠ []) : ∃ b, bestOf l = some b := by
  cases l with
  | nil => exact absurd rfl h
  | cons x rest =>
    cases hb : bestOf rest with
    | none => exact ⟨x, by simp [bestOf, hb]⟩
    | some b =>
      by_cases hx : x.2 ≤ b.2
      · exact ⟨x, by simp [bestOf, hb, hx]⟩
      · exact ⟨b, by simp [bestOf, hb, hx]⟩

lemma bestOf_min {l : List (ℕ × ℝ)} {b : ℕ × ℝ} (h : bestOf l = some b) :
    b ∈ l ∧ ∀ q ∈ l, b.2 ≤ q.2 := by
  rw [bestOf_eq_firstMin] at h
  refine ⟨List.mem_of_find?_eq_some h, ?_⟩
  have := List.find?_some h
  simpa using this

/-! ### Magnitude and normalization lemmas -/

lemma magnitude_replicate_zero (n L : ℕ) (hn : 0 < n) :
    magnitude n (List.replicate L (0 : ℝ)) = 0 := by
  unfold magnitude
  have hmap : (List.replicate L (0 : ℝ)).map (fun a => |a| ^ n) =
      List.replicate L (0 : ℝ) := by
    simp [List.map_replicate, zero_pow hn.ne']
  rw [hmap]
  have hsum : (List.replicate L (0 : ℝ)).sum = 0 := by
    simp [List.sum_replicate]
  rw [hsum]
  exact Real.zero_rpow (inv_ne_zero (Nat.cast_ne_zero.mpr hn.ne'))

lemma sum_abs_pow_nonneg (n : ℕ) (w : List ℝ) :
    0 ≤ (w.map fun a => |a| ^ n).sum := by
  apply List.sum_nonneg
  intro x hx
  rcases List.mem_map.mp hx with ⟨a, _, rfl⟩
  positivity

lemma sum_abs_pow_pos (n : ℕ) (w : List ℝ) (hn : 0 < n)
    (hw : 0 < magnitude n w) : 0 < (w.map fun a => |a| ^ n).sum := by
  rcases (sum_abs_pow_nonneg n w).lt_or_eq with h | h
  · exact h
  · exfalso
    have : magnitude n w = 0 := by
      unfold magnitude
      rw [← h]
      exact Real.zero_rpow (inv_ne_zero (Nat.cast_ne_zero.mpr hn.ne'))
    exact absurd this hw.ne'

lemma magnitude_pow_eq_sum (n : ℕ) (w : List ℝ) (hn : 0 < n) :
    magnitude n w ^ n = (w.map fun a => |a| ^ n).sum := by
  unfold magnitude
  rw [← Real.rpow_natCast (((w.map fun a => |a| ^ n).sum) ^ ((n : ℝ)⁻¹)) n,
    ← Real.rpow_mul (sum_abs_pow_nonneg n w),
    inv_mul_cancel₀ (Nat.cast_ne_zero.mpr hn.ne'), Real.rpow_one]

lemma magnitude_normalize (n : ℕ) (hn : 0 < n) (w : List ℝ)
    (hw : 0 < magnitude n w) : magnitude n (normalize n w) = 1 := by
  have hS : 0 < (w.map fun a => |a| ^ n).sum := sum_abs_pow_pos n w hn hw
  have key : ((normalize n w).map fun a => |a| ^ n).sum = 1 := by
    unfold normalize
    rw [List.map_map]
    have hcomp : ((fun a => |a| ^ n) ∘ fun a => a / magnitude n w) =
        fun a => |a| ^ n / magnitude n w ^ n := by
      funext a
      simp [Function.comp, abs_div, abs_of_pos hw, div_pow]
    rw [hcomp]
    have hsplit : (w.map fun a => |a| ^ n / magnitude n w ^ n) =
        (w.map fun a => |a| ^ n).map fun s => s / magnitude n w ^ n := by
      rw [List.map_map]
      rfl
    rw [hsplit, sum_map_div, magnitude_pow_eq_sum n w hn, div_self hS.ne']
  unfold magnitude
  rw [key, Real.one_rpow]

lemma normalize_of_magnitude_one (n : ℕ) (v : List ℝ)
    (h : magnitude n v = 1) : normalize n v = v := by
  unfold normalize
  rw [h]
  simp

/-! ### Decoder branch lemmas -/

lemma decodeOne_of_le (cfg : DecodeConfig) (cb : List CodeEntry) (v : List ℝ)
    (h : cfg.magnitudeThreshold ≤ magnitude cfg.normOrder v) :
    decodeOne cfg cb v =
      ⟨(lookupNearest cfg.normOrder cb (normalize cfg.normOrder v)).1,
       (lookupNearest cfg.normOrder cb (normalize cfg.normOrder v)).2,
       decide ((lookupNearest cfg.normOrder cb (normalize cfg.normOrder v)).2 ≤
         cfg.distanceThreshold)⟩ := by
  unfold decodeOne
  rw [if_neg (not_lt.mpr h)]

lemma decodeOne_of_lt (cfg : DecodeConfig) (cb : List CodeEntry) (v : List ℝ)
    (h : magnitude cfg.normOrder v < cfg.magnitudeThreshold) :
    decodeOne cfg cb v = ⟨backgroundTarget, 0, false⟩ := by
  unfold decodeOne
  rw [if_pos h]

lemma magnitude_two_unit : magnitude 2 [(1 : ℝ), 0] = 1 := by
  have hsum : ([(1 : ℝ), 0].map fun a => |a| ^ 2).sum = 1 := by
    norm_num
  unfold magnitude
  rw [hsum, Real.one_rpow]

lemma magnitude_two_zero : magnitude 2 [(0 : ℝ), 0] = 0 := by
  have h : [(0 : ℝ), 0] = List.replicate 2 0 := rfl
  rw [h]
  exact magnitude_replicate_zero 2 2 (by norm_num)

lemma decode_normalized_codeword (cfg : DecodeConfig) (cb : List CodeEntry)
    (e : CodeEntry) (he : e ∈ cb) (hn : 0 < cfg.normOrder)
    (hw : 0 < magnitude cfg.normOrder e.word)
    (hm : cfg.magnitudeThreshold ≤ 1) (hd : 0 < cfg.distanceThreshold) :
    (decodeOne cfg cb (normalize cfg.normOrder e.word)).distance = 0 ∧
    (decodeOne cfg cb (normalize cfg.normOrder e.word)).passed = true := by
  have hu1 : magnitude cfg.normOrder (normalize cfg.normOrder e.word) = 1 :=
    magnitude_normalize cfg.normOrder hn e.word hw
  have hge : cfg.magnitudeThreshold ≤
      magnitude cfg.normOrder (normalize cfg.normOrder e.word) := by
    rw [hu1]; exact hm
  have hnn : normalize cfg.normOrder (normalize cfg.normOrder e.word) =
      normalize cfg.normOrder e.word :=
    normalize_of_magnitude_one _ _ hu1
  have hmemc : (e.target, euclideanDist (normalize cfg.normOrder e.word)
      (normalize cfg.normOrder e.word)) ∈
      candidates cfg.normOrder cb (normalize cfg.normOrder e.word) :=
    List.mem_map.mpr ⟨e, he, rfl⟩
  rw [euclideanDist_self] at hmemc
  have hne : candidates cfg.normOrder cb (normalize cfg.normOrder e.word) ≠ [] :=
    List.ne_nil_of_mem hmemc
  obtain ⟨b, hbsome⟩ := bestOf_isSome hne
  obtain ⟨hbmem, hmin⟩ := bestOf_min hbsome
  have hble : b.2 ≤ 0 := hmin _ hmemc
  have hbge : 0 ≤ b.2 := by
    rcases List.mem_map.mp hbmem with ⟨a, _, rfl⟩
    exact euclideanDist_nonneg _ _
  have hb0 : b.2 = 0 := le_antisymm hble hbge
  have hlook : lookupNearest cfg.normOrder cb (normalize cfg.normOrder e.word) = b := by
    unfold lookupNearest
    rw [hbsome]
    rfl
  rw [decodeOne_of_le cfg cb _ hge, hnn, hlook]
  refine ⟨hb0, ?_⟩
  simp only [decide_eq_true_eq]
  rw [hb0]
  exact hd.le

/-! ### Grid, flood fill and labeler lemmas -/

lemma mem_positions {Y X : ℕ} {p : Pos} :
    p ∈ positions Y X ↔ p.1 < Y ∧ p.2 < X := by
  unfold positions
  constructor
  · intro h
    rcases List.mem_flatMap.mp h with ⟨y, hy, hmem⟩
    rcases List.mem_map.mp hmem with ⟨x, hx, rfl⟩
    exact ⟨List.mem_range.mp hy, List.mem_range.mp hx⟩
  · rintro ⟨h1, h2⟩
    refine List.mem_flatMap.mpr ⟨p.1, List.mem_range.mpr h1, ?_⟩
    exact List.mem_map.mpr ⟨p.2, List.mem_range.mpr h2, rfl⟩

lemma positions_nodup (Y X : ℕ) : (positions Y X).Nodup := by
  unfold positions
  rw [List.nodup_flatMap]
  constructor
  · intro y _
    exact (List.nodup_range X).map (fun a b hab => (Prod.mk.injEq _ _ _ _ ▸ hab).2)
  · refine (List.pairwise_lt_range Y).imp ?_
    intro a b hab
    intro q hqa hqb
    rcases List.mem_map.mp hqa with ⟨x, _, rfl⟩
    rcases List.mem_map.mp hqb with ⟨x2, _, h⟩
    have := (Prod.mk.injEq _ _ _ _ ▸ h).1
    omega

lemma subset_grow (Y X : ℕ) (g : Pos → Option ℕ) (t : ℕ) (S : List Pos) :
    S ⊆ grow Y X g t S := fun _ hq => List.mem_append_left _ hq

lemma grow_mem_cases {Y X : ℕ} {g : Pos → Option ℕ} {t : ℕ} {S : List Pos}
    {q : Pos} (h : q ∈ grow Y X g t S) :
    q ∈ S ∨ (q.1 < Y ∧ q.2 < X ∧ g q = some t ∧ q ∉ S) := by
  unfold grow at h
  rcases List.mem_append.mp h with h | h
  · exact Or.inl h
  · right
    have h2 := (List.mem_filter.mp (List.mem_dedup.mp h)).2
    simp only [inGridb, Bool.and_eq_true, decide_eq_true_eq, beq_iff_eq] at h2
    exact ⟨h2.1.1.1, h2.1.1.2, h2.1.2, h2.2⟩

lemma grow_nodup {Y X : ℕ} {g : Pos → Option ℕ} {t : ℕ} {S : List Pos}
    (h : S.Nodup) : (grow Y X g t S).Nodup := by
  unfold grow
  refine h.append (List.nodup_dedup _) ?_
  intro a haS hadedup
  have h2 := (List.mem_filter.mp (List.mem_dedup.mp hadedup)).2
  simp only [Bool.and_eq_true, decide_eq_true_eq] at h2
  exact h2.2 haS

lemma subset_compAux (Y X : ℕ) (g : Pos → Option ℕ) (t : ℕ) :
    ∀ (fuel : ℕ) (S : List Pos), S ⊆ compAux Y X g t fuel S := by
  intro fuel
  induction fuel with
  | zero => intro S q hq; exact hq
  | succ f ih =>
    intro S q hq
    exact ih (grow Y X g t S) (subset_grow Y X g t S hq)

lemma compAux_nodup {Y X : ℕ} {g : Pos → Option ℕ} {t : ℕ} :
    ∀ {fuel : ℕ} {S : List Pos}, S.Nodup → (compAux Y X g t fuel S).Nodup := by
  intro fuel
  induction fuel with
  | zero => intro S h; exact h
  | succ f ih => intro S h; exact ih (grow_nodup h)

lemma compAux_bounds {Y X : ℕ} {g : Pos → Option ℕ} {t : ℕ} :
    ∀ {fuel : ℕ} {S : List Pos}, (∀ q ∈ S, q.1 < Y ∧ q.2 < X) →
    ∀ q ∈ compAux Y X g t fuel S, q.1 < Y ∧ q.2 < X := by
  intro fuel
  induction fuel with
  | zero => intro S h; exact h
  | succ f ih =>
    intro S h
    refine ih ?_
    intro q hq
    rcases grow_mem_cases hq with hq | hq
    · exact h q hq
    · exact ⟨hq.1, hq.2.1⟩

lemma mem_comp_self (Y X : ℕ) (g : Pos → Option ℕ) (t : ℕ) (p : Pos) :
    p ∈ comp Y X g t p :=
  subset_compAux Y X g t (Y * X) [p] (List.mem_singleton_self p)

lemma comp_nodup (Y X : ℕ) (g : Pos → Option ℕ) (t : ℕ) (p : Pos) :
    (comp Y X g t p).Nodup :=
  compAux_nodup (List.nodup_singleton p)

lemma comp_bounds {Y X : ℕ} {g : Pos → Option ℕ} {t : ℕ} {p : Pos}
    (h1 : p.1 < Y) (h2 : p.2 < X) :
    ∀ q ∈ comp Y X g t p, q.1 < Y ∧ q.2 < X := by
  refine compAux_bounds ?_
  intro q hq
  rw [List.mem_singleton.mp hq]
  exact ⟨h1, h2⟩

lemma foldl_inv {α β : Type} {Inv : β → Prop} {P : α → Prop} {f : β → α → β}
    (hf : ∀ b a, Inv b → P a → Inv (f b a)) :
    ∀ l : List α, (∀ a ∈ l, P a) → ∀ b, Inv b → Inv (l.foldl f b) := by
  intro l
  induction l with
  | nil => intro _ b hb; exact hb
  | cons a l ih =>
    intro h b hb
    exact ih (fun x hx => h x (List.mem_cons_of_mem _ hx)) _
      (hf b a hb (h a (List.mem_cons_self _ _)))

lemma isUnlabeled_iff {rs : List LRegion} {p : Pos} :
    isUnlabeled rs p = true ↔ ∀ r ∈ rs, p ∉ r.pixels := by
  unfold isUnlabeled
  rw [List.all_eq_true]
  simp

lemma labelStep_good {Y X : ℕ} {g : Pos → Option ℕ} {rs : List LRegion}
    {p : Pos} (hrs : goodRegions Y X rs) (hp1 : p.1 < Y) (hp2 : p.2 < X) :
    goodRegions Y X (labelStep Y X g rs p) := by
  obtain ⟨ha, hb, hc⟩ := hrs
  unfold labelStep
  cases hgp : g p with
  | none => exact ⟨ha, hb, hc⟩
  | some t =>
    show goodRegions Y X
      (if isUnlabeled rs p = true then
        rs ++ [⟨rs.length + 1, t, (comp Y X g t p).filter fun q => isUnlabeled rs q⟩]
      else rs)
    by_cases hun : isUnlabeled rs p = true
    · rw [if_pos hun]
      set R : LRegion :=
        ⟨rs.length + 1, t, (comp Y X g t p).filter fun q => isUnlabeled rs q⟩
        with hR
      have hRpix : ∀ q ∈ R.pixels, q ∈ comp Y X g t p ∧ isUnlabeled rs q = true := by
        intro q hq
        have := List.mem_filter.mp hq
        exact ⟨this.1, this.2⟩
      refine ⟨?_, ?_, ?_⟩
      · intro i hi
        rw [List.length_append, List.length_singleton] at hi
        by_cases hilt : i < rs.length
        · have : (rs ++ [R]).get ⟨i, by simp; omega⟩ = rs.get ⟨i, hilt⟩ := by
            simp [List.getElem_append, hilt]
          rw [this]
          exact ha i hilt
        · have hieq : i = rs.length := by omega
          subst hieq
          have : (rs ++ [R]).get ⟨rs.length, by simp⟩ = R := by
            simp
          rw [this]
      · rw [List.pairwise_append]
        refine ⟨hb, List.pairwise_singleton _ _, ?_⟩
        intro r hr b hbR q hqr
        rw [List.mem_singleton.mp hbR]
        intro hqR
        exact (isUnlabeled_iff.mp (hRpix q hqR).2) r hr hqr
      · intro r hr
        rcases List.mem_append.mp hr with hr | hr
        · exact hc r hr
        · rw [List.mem_singleton.mp hr]
          have hpR : p ∈ R.pixels :=
            List.mem_filter.mpr ⟨mem_comp_self Y X g t p, hun⟩
          refine ⟨List.ne_nil_of_mem hpR, (comp_nodup Y X g t p).filter _, ?_⟩
          intro q hq
          exact comp_bounds hp1 hp2 q (hRpix q hq).1
    · rw [if_neg hun]
      exact ⟨ha, hb, hc⟩

lemma labelRegions_good (Y X : ℕ) (g : Pos → Option ℕ) :
    goodRegions Y X (labelRegions Y X g) := by
  unfold labelRegions
  refine foldl_inv (P := fun p : Pos => p.1 < Y ∧ p.2 < X)
    (fun b a hb haP => labelStep_good hb haP.1 haP.2) _
    (fun a ha => mem_positions.mp ha) [] ?_
  refine ⟨?_, List.Pairwise.nil, ?_⟩
  · intro i hi
    simp at hi
  · intro r hr
    simp at hr

lemma label_spec {Y X : ℕ} {rs : List LRegion} (hg : goodRegions Y X rs)
    {r : LRegion} (hr : r ∈ rs) :
    0 < r.label ∧ r.label ≤ rs.length ∧
    ∃ hi : r.label - 1 < rs.length, rs.get ⟨r.label - 1, hi⟩ = r := by
  obtain ⟨⟨i, hi⟩, hget⟩ := List.mem_iff_get.mp hr
  have hlab : r.label = i + 1 := by
    rw [← hget]
    exact hg.1 i hi
  refine ⟨by omega, by omega, ?_⟩
  have hidx : r.label - 1 = i := by omega
  rw [hidx]
  exact ⟨hi, hget⟩

lemma label_inj {Y X : ℕ} {rs : List LRegion} (hg : goodRegions Y X rs)
    {r s : LRegion} (hr : r ∈ rs) (hs : s ∈ rs) (h : r.label = s.label) :
    r = s := by
  obtain ⟨-, -, hir, hgr⟩ := label_spec hg hr
  obtain ⟨-, -, his, hgs⟩ := label_spec hg hs
  rw [← hgr, ← hgs]
  congr 1
  exact Fin.ext (show r.label - 1 = s.label - 1 by omega)

lemma regions_nodup {Y X : ℕ} {rs : List LRegion} (hg : goodRegions Y X rs) :
    rs.Nodup := by
  rw [List.nodup_iff_injective_get]
  intro i j hij
  have hi := hg.1 i.1 i.2
  have hj := hg.1 j.1 j.2
  have : i.1 + 1 = j.1 + 1 := by
    rw [← hi, ← hj]
    simp [Fin.eta] at hij ⊢
    rw [hij]
  exact Fin.ext (by omega)

lemma mem_pixels_unique {Y X : ℕ} {rs : List LRegion} (hg : goodRegions Y X rs)
    {r s : LRegion} {p : Pos} (hr : r ∈ rs) (hs : s ∈ rs)
    (hpr : p ∈ r.pixels) (hps : p ∈ s.pixels) : r = s := by
  obtain ⟨⟨i, hi⟩, hgr⟩ := List.mem_iff_get.mp hr
  obtain ⟨⟨j, hj⟩, hgs⟩ := List.mem_iff_get.mp hs
  have hpair := List.pairwise_iff_get.mp hg.2.1
  rcases lt_trichotomy i j with hij | hij | hij
  · exfalso
    have := hpair ⟨i, hi⟩ ⟨j, hj⟩ hij
    rw [hgr, hgs] at this
    exact this p hpr hps
  · rw [← hgr, ← hgs]
    congr 1
    exact Fin.ext hij
  · exfalso
    have := hpair ⟨j, hj⟩ ⟨i, hi⟩ hij
    rw [hgr, hgs] at this
    exact this p hps hpr

lemma labelOf_eq_of_mem {rs : List LRegion}
    (hpair : rs.Pairwise fun r s => ∀ p ∈ r.pixels, p ∉ s.pixels)
    {r : LRegion} {p : Pos} (hr : r ∈ rs) (hp : p ∈ r.pixels) :
    labelOf rs p = r.label := by
  induction rs with
  | nil => exact absurd hr (List.not_mem_nil r)
  | cons s rest ih =>
    obtain ⟨hhead, htail⟩ := List.pairwise_cons.mp hpair
    rcases List.mem_cons.mp hr with hsr | hr2
    · subst hsr
      unfold labelOf
      rw [List.find?_cons_of_pos _ (by simpa using hp)]
    · have hps : p ∉ s.pixels := by
        intro hmem
        exact hhead r hr2 p hmem hp
      unfold labelOf
      rw [List.find?_cons_of_neg _ (by simpa using hps)]
      exact ih htail hr2

lemma exists_region_of_labelOf {rs : List LRegion} {p : Pos}
    (h : labelOf rs p ≠ 0) :
    ∃ r ∈ rs, p ∈ r.pixels ∧ r.label = labelOf rs p := by
  unfold labelOf at h ⊢
  cases hf : rs.find? fun r => decide (p ∈ r.pixels) with
  | none =>
    rw [hf] at h
    exact absurd rfl h
  | some r =>
    refine ⟨r, List.mem_of_find?_eq_some hf, ?_, rfl⟩
    have := List.find?_some hf
    simpa using this

lemma labelOf_eq_zero {rs : List LRegion} {p : Pos}
    (h : ∀ r ∈ rs, p ∉ r.pixels) : labelOf rs p = 0 := by
  unfold labelOf
  rw [List.find?_eq_none.mpr ?_]
  intro r hr
  simpa using h r hr

lemma mem_retained_iff {minA : ℕ} {maxA : ℕ∞} {rs : List LRegion}
    {r : LRegion} :
    r ∈ retained minA maxA rs ↔
      r ∈ rs ∧ minA ≤ r.pixels.length ∧ (r.pixels.length : ℕ∞) ≤ maxA := by
  simp [retained, keepArea, List.mem_filter, and_assoc]

lemma retained_pairwise {Y X minA : ℕ} {maxA : ℕ∞} {rs : List LRegion}
    (hg : goodRegions Y X rs) :
    (retained minA maxA rs).Pairwise fun r s => ∀ p ∈ r.pixels, p ∉ s.pixels :=
  hg.2.1.sublist (List.filter_sublist rs)

lemma filter_eq_singleton {α : Type} {l : List α} {pred : α → Bool} {a : α}
    (hl : l.Nodup) (ha : a ∈ l) (hpa : pred a = true)
    (huniq : ∀ x ∈ l, pred x = true → x = a) : l.filter pred = [a] := by
  induction l with
  | nil => exact absurd ha (List.not_mem_nil a)
  | cons x xs ih =>
    obtain ⟨hxnot, hxs⟩ := List.nodup_cons.mp hl
    rcases List.mem_cons.mp ha with hax | haxs
    · subst hax
      rw [List.filter_cons_of_pos hpa]
      have : xs.filter pred = [] := by
        rw [List.filter_eq_nil_iff]
        intro y hy hpy
        exact hxnot (huniq y (List.mem_cons_of_mem _ hy) hpy ▸ hy)
      rw [this]
    · have hpx : pred x = false := by
        by_contra hc
        have : x = a := huniq x (List.mem_cons_self _ _)
          (Bool.not_eq_false _ ▸ hc)
        subst this
        exact hxnot haxs
      rw [List.filter_cons_of_neg (by simp [hpx])]
      exact ih hxs haxs (fun y hy hpy => huniq y (List.mem_cons_of_mem _ hy) hpy)

lemma countP_label_eq_one {Y X minA : ℕ} {maxA : ℕ∞} {rs : List LRegion}
    (hg : goodRegions Y X rs) {r₀ : LRegion}
    (hr : r₀ ∈ retained minA maxA rs) :
    (spotTable minA maxA rs).countP (fun row => decide (row.label = r₀.label)) = 1 := by
  unfold spotTable
  rw [List.countP_map, List.countP_eq_length_filter]
  have hnodup : (retained minA maxA rs).Nodup :=
    (regions_nodup hg).sublist (List.filter_sublist rs)
  have hfil : (retained minA maxA rs).filter
      ((fun row : SpotRecord => decide (row.label = r₀.label)) ∘
        fun r => (⟨r.label, r.target, r.pixels.length⟩ : SpotRecord)) = [r₀] := by
    refine filter_eq_singleton hnodup hr (by simp) ?_
    intro x hx hpx
    simp only [Function.comp, decide_eq_true_eq] at hpx
    exact label_inj hg (mem_retained_iff.mp hx).1 (mem_retained_iff.mp hr).1 hpx
  rw [hfil, List.length_singleton]

lemma prunedLabelOf_eq_label {Y X minA : ℕ} {maxA : ℕ∞} {rs : List LRegion}
    (hg : goodRegions Y X rs) {r : LRegion} {p : Pos}
    (hr : r ∈ retained minA maxA rs) (hp : p ∈ r.pixels) :
    prunedLabelOf minA maxA rs p = r.label :=
  labelOf_eq_of_mem (retained_pairwise hg) hr hp

lemma pixels_filter_length {Y X minA : ℕ} {maxA : ℕ∞} {rs : List LRegion}
    (hg : goodRegions Y X rs) {r₀ : LRegion}
    (hr : r₀ ∈ retained minA maxA rs) :
    ((positions Y X).filter fun q =>
      decide (prunedLabelOf minA maxA rs q = r₀.label)).length =
    r₀.pixels.length := by
  have hr₀rs : r₀ ∈ rs := (mem_retained_iff.mp hr).1
  have hlab := label_spec hg hr₀rs
  have hpoint : ∀ q ∈ positions Y X,
      (decide (prunedLabelOf minA maxA rs q = r₀.label)) =
      (decide (q ∈ r₀.pixels)) := by
    intro q _
    rw [decide_eq_decide]
    constructor
    · intro h
      have hne : prunedLabelOf minA maxA rs q ≠ 0 := by
        rw [h]
        omega
      obtain ⟨s, hs, hqs, hslab⟩ := exists_region_of_labelOf hne
      have hsr : s = r₀ :=
        label_inj hg (mem_retained_iff.mp hs).1 hr₀rs (by rw [hslab]; exact h)
      exact hsr ▸ hqs
    · intro h
      exact prunedLabelOf_eq_label hg hr h
  rw [List.filter_congr hpoint]
  have hsub : ∀ q ∈ r₀.pixels, q ∈ positions Y X := by
    intro q hq
    exact mem_positions.mpr ((hg.2.2 r₀ hr₀rs).2.2 q hq)
  have hperm : List.Perm
      ((positions Y X).filter fun q => decide (q ∈ r₀.pixels))
      r₀.pixels := by
    rw [List.perm_ext_iff_of_nodup
      ((positions_nodup Y X).filter _) (hg.2.2 r₀ hr₀rs).2.1]
    intro q
    rw [List.mem_filter]
    simp only [decide_eq_true_eq]
    exact ⟨fun h => h.2, fun h => ⟨hsub q h, h⟩⟩
  exact hperm.length_eq

/-! ### Claim theorems -/

/-- Claim C1: for every pixel vector whose order-n magnitude is at least
magnitude_threshold, the decoder normalizes the vector, finds the nearest
codeword via lookup, and marks the pixel passed if and only if the
distance to that nearest codeword is at most distance_threshold. -/
theorem claim_C1_decode_above_magnitude (cfg : DecodeConfig)
    (cb : List CodeEntry) (v : List ℝ)
    (h : cfg.magnitudeThreshold ≤ magnitude cfg.normOrder v) :
    decodeOne cfg cb v =
      ⟨(lookupNearest cfg.normOrder cb (normalize cfg.normOrder v)).1,
       (lookupNearest cfg.normOrder cb (normalize cfg.normOrder v)).2,
       decide ((lookupNearest cfg.normOrder cb (normalize cfg.normOrder v)).2 ≤
         cfg.distanceThreshold)⟩ ∧
    ((decodeOne cfg cb v).passed = true ↔
      (lookupNearest cfg.normOrder cb (normalize cfg.normOrder v)).2 ≤
        cfg.distanceThreshold) := by
  refine ⟨decodeOne_of_le cfg cb v h, ?_⟩
  rw [decodeOne_of_le cfg cb v h]
  simp

/-- Witness for claim C1 at a concrete unit pixel vector. -/
theorem claim_C1_witness :
    ((⟨2, 1, 1 / 2, 1, ⊤⟩ : DecodeConfig).magnitudeThreshold ≤
      magnitude 2 [(1 : ℝ), 0]) ∧
    ((decodeOne ⟨2, 1, 1 / 2, 1, ⊤⟩ [⟨1, [1, 0]⟩] [(1 : ℝ), 0]).passed = true ↔
      (lookupNearest 2 [⟨1, [1, 0]⟩] (normalize 2 [(1 : ℝ), 0])).2 ≤ (1 : ℝ)) := by
  have h : (⟨2, 1, 1 / 2, 1, ⊤⟩ : DecodeConfig).magnitudeThreshold ≤
      magnitude 2 [(1 : ℝ), 0] := by
    show (1 / 2 : ℝ) ≤ magnitude 2 [(1 : ℝ), 0]
    rw [magnitude_two_unit]
    norm_num
  exact ⟨h, (claim_C1_decode_above_magnitude ⟨2, 1, 1 / 2, 1, ⊤⟩
    [⟨1, [1, 0]⟩] [(1 : ℝ), 0] h).2⟩

/-- Claim C2: for every pixel vector whose order-n magnitude is strictly
below magnitude_threshold, the decoder marks it failed with the background
target, for every codebook (no distance is consulted). -/
theorem claim_C2_below_magnitude_failed (cfg : DecodeConfig)
    (cb : List CodeEntry) (v : List ℝ)
    (h : magnitude cfg.normOrder v < cfg.magnitudeThreshold) :
    decodeOne cfg cb v = ⟨backgroundTarget, 0, false⟩ :=
  decodeOne_of_lt cfg cb v h

/-- Witness for claim C2 at the concrete all-zeros pixel vector. -/
theorem claim_C2_witness :
    magnitude (⟨2, 1, 1, 1, ⊤⟩ : DecodeConfig).normOrder [(0 : ℝ), 0] <
      (⟨2, 1, 1, 1, ⊤⟩ : DecodeConfig).magnitudeThreshold ∧
    decodeOne ⟨2, 1, 1, 1, ⊤⟩ [⟨1, [1, 0]⟩] [(0 : ℝ), 0] =
      ⟨backgroundTarget, 0, false⟩ := by
  have h : magnitude (⟨2, 1, 1, 1, ⊤⟩ : DecodeConfig).normOrder [(0 : ℝ), 0] <
      (⟨2, 1, 1, 1, ⊤⟩ : DecodeConfig).magnitudeThreshold := by
    show magnitude 2 [(0 : ℝ), 0] < (1 : ℝ)
    rw [magnitude_two_zero]
    norm_num
  exact ⟨h, claim_C2_below_magnitude_failed ⟨2, 1, 1, 1, ⊤⟩ [⟨1, [1, 0]⟩]
    [(0 : ℝ), 0] h⟩

/-- Claim C3 counterexample: magnitude_threshold = 0 is a permitted
configuration (the spec demands only that it is nonnegative), yet under it
the all-zeros pixel vector — whose magnitude is 0 — is NOT rejected before
normalization and distance computation: the decoder reaches the distance
path and even marks the pixel passed, contradicting the claim that the
zero vector is always rejected for every permitted configuration. -/
theorem claim_C3_counterexample :
    (0 : ℝ) ≤ (⟨2, 2, 0, 1, ⊤⟩ : DecodeConfig).magnitudeThreshold ∧
    magnitude 2 [(0 : ℝ), 0] = 0 ∧
    (decodeOne ⟨2, 2, 0, 1, ⊤⟩ [⟨1, [1, 0]⟩] [(0 : ℝ), 0]).passed = true := by
  have hmag0 : magnitude 2 [(0 : ℝ), 0] = 0 := magnitude_two_zero
  refine ⟨le_refl 0, hmag0, ?_⟩
  have hge : (⟨2, 2, 0, 1, ⊤⟩ : DecodeConfig).magnitudeThreshold ≤
      magnitude 2 [(0 : ℝ), 0] := by
    rw [hmag0]
  rw [decodeOne_of_le _ _ _ hge]
  have hnorm0 : normalize 2 [(0 : ℝ), 0] = [(0 : ℝ), 0] := by
    unfold normalize
    rw [hmag0]
    norm_num
  have hnw : normalize 2 [(1 : ℝ), 0] = [(1 : ℝ), 0] :=
    normalize_of_magnitude_one _ _ magnitude_two_unit
  have hdist : euclideanDist [(0 : ℝ), 0] [(1 : ℝ), 0] = 1 := by
    unfold euclideanDist
    norm_num
  have hcand : candidates 2 [⟨1, [1, 0]⟩] [(0 : ℝ), 0] = [(1, (1 : ℝ))] := by
    unfold candidates
    simp [hnw, hdist]
  have hlook : lookupNearest 2 [⟨1, [1, 0]⟩] [(0 : ℝ), 0] = (1, 1) := by
    unfold lookupNearest
    rw [hcand]
    simp [bestOf]
  simp only [hnorm0, hlook]
  norm_num

/-- Claim C3 amended: for every configuration with a POSITIVE
magnitude_threshold (and a positive norm order), the all-zeros pixel
vector has magnitude 0 and is rejected by the short-circuit branch before
normalization and distance computation, so the decoder never divides by a
zero magnitude. -/
theorem claim_C3_zero_vector_rejected (cfg : DecodeConfig)
    (cb : List CodeEntry) (L : ℕ) (hn : 0 < cfg.normOrder)
    (hm : 0 < cfg.magnitudeThreshold) :
    magnitude cfg.normOrder (List.replicate L 0) = 0 ∧
    decodeOne cfg cb (List.replicate L 0) = ⟨backgroundTarget, 0, false⟩ := by
  have h0 := magnitude_replicate_zero cfg.normOrder L hn
  exact ⟨h0, decodeOne_of_lt cfg cb _ (by rw [h0]; exact hm)⟩

/-- Witness for the amended claim C3 at a concrete configuration. -/
theorem claim_C3_witness :
    0 < (⟨2, 2, 1, 1, ⊤⟩ : DecodeConfig).normOrder ∧
    (0 : ℝ) < (⟨2, 2, 1, 1, ⊤⟩ : DecodeConfig).magnitudeThreshold ∧
    decodeOne ⟨2, 2, 1, 1, ⊤⟩ [] (List.replicate 2 0) =
      ⟨backgroundTarget, 0, false⟩ := by
  refine ⟨by norm_num, by norm_num, ?_⟩
  exact (claim_C3_zero_vector_rejected ⟨2, 2, 1, 1, ⊤⟩ [] 2
    (by norm_num) (by norm_num)).2

/-- Claim C6: a pixel vector exactly equal to a normalized codeword of the
codebook decodes to distance 0 and passes for any positive
distance_threshold (provided the codeword is nonzero — the spec's
codebook invariant — the norm order is positive, and the magnitude
threshold does not exceed 1, the magnitude of a normalized vector, as in
the notebook's configuration). -/
theorem claim_C6_exact_codeword_passes (cfg : DecodeConfig)
    (cb : List CodeEntry) (e : CodeEntry) (he : e ∈ cb)
    (hn : 0 < cfg.normOrder) (hw : 0 < magnitude cfg.normOrder e.word)
    (hm : cfg.magnitudeThreshold ≤ 1) (hd : 0 < cfg.distanceThreshold) :
    (decodeOne cfg cb (normalize cfg.normOrder e.word)).distance = 0 ∧
    (decodeOne cfg cb (normalize cfg.normOrder e.word)).passed = true :=
  decode_normalized_codeword cfg cb e he hn hw hm hd

/-- Witness for claim C6 at a concrete codebook with one unit codeword. -/
theorem claim_C6_witness :
    (0 : ℝ) < magnitude 2 (⟨1, [1, 0]⟩ : CodeEntry).word ∧
    (decodeOne ⟨2, 1, 1 / 2, 1, ⊤⟩ [⟨1, [1, 0]⟩]
      (normalize 2 (⟨1, [1, 0]⟩ : CodeEntry).word)).distance = 0 ∧
    (decodeOne ⟨2, 1, 1 / 2, 1, ⊤⟩ [⟨1, [1, 0]⟩]
      (normalize 2 (⟨1, [1, 0]⟩ : CodeEntry).word)).passed = true := by
  have hw : (0 : ℝ) < magnitude 2 (⟨1, [1, 0]⟩ : CodeEntry).word := by
    show (0 : ℝ) < magnitude 2 [(1 : ℝ), 0]
    rw [magnitude_two_unit]
    norm_num
  have main := claim_C6_exact_codeword_passes ⟨2, 1, 1 / 2, 1, ⊤⟩
    [⟨1, [1, 0]⟩] ⟨1, [1, 0]⟩ (List.mem_singleton_self _) (by norm_num) hw
    (by norm_num) (by norm_num)
  exact ⟨hw, main.1, main.2⟩

/-- Claim C7: the full decode pass is deterministic — it is a pure
function of its inputs, so two runs on identical inputs produce identical
spot tables and label images — and distance ties in the nearest-codeword
lookup are resolved by the first-encountered codeword in the fixed
codebook enumeration order (the selection agrees with firstMin, the first
candidate attaining the minimum distance), never randomly. -/
theorem claim_C7_determinism :
    (∀ (cfg : DecodeConfig) (cb : List CodeEntry) (Y X : ℕ)
      (img : Pos → List ℝ),
      pipelineRun cfg cb Y X img = pipelineRun cfg cb Y X img) ∧
    ∀ l : List (ℕ × ℝ), bestOf l = firstMin l :=
  ⟨fun _ _ _ _ _ => rfl, bestOf_eq_firstMin⟩

/-- Claim C4: a labeled region is retained by the area filter if and only
if min_area ≤ area ≤ max_area; a discarded region has all its pixels
zeroed in the pruned label image and no row in the emitted spot table
(it silently vanishes rather than raising an error); and max_area = ⊤
imposes no upper bound, so an area of 1,000,000 passes the filter with
min_area = 1. -/
theorem claim_C4_area_filter (Y X : ℕ) (g : Pos → Option ℕ) (minA : ℕ)
    (maxA : ℕ∞) (r : LRegion) (hr : r ∈ labelRegions Y X g) :
    ((r ∈ retained minA maxA (labelRegions Y X g) ↔
        minA ≤ r.pixels.length ∧ (r.pixels.length : ℕ∞) ≤ maxA) ∧
      (r ∉ retained minA maxA (labelRegions Y X g) →
        (∀ p ∈ r.pixels,
          prunedLabelOf minA maxA (labelRegions Y X g) p = 0) ∧
        ∀ row ∈ spotTable minA maxA (labelRegions Y X g),
          row.label ≠ r.label)) ∧
    keepArea 1 ⊤ 1000000 = true := by
  have hg := labelRegions_good Y X g
  refine ⟨⟨?_, ?_⟩, by decide⟩
  · rw [mem_retained_iff]
    exact ⟨fun h => h.2, fun h => ⟨hr, h⟩⟩
  · intro hnot
    constructor
    · intro p hp
      apply labelOf_eq_zero
      intro s hs hps
      have hsrs : s ∈ labelRegions Y X g := (mem_retained_iff.mp hs).1
      have : s = r := mem_pixels_unique hg hsrs hr hps hp
      exact hnot (this ▸ hs)
    · intro row hrow
      unfold spotTable at hrow
      obtain ⟨s, hs, rfl⟩ := List.mem_map.mp hrow
      intro hlab
      have hsrs : s ∈ labelRegions Y X g := (mem_retained_iff.mp hs).1
      have : s = r := label_inj hg hsrs hr hlab
      exact hnot (this ▸ hs)

/-- Witness for claim C4 at a concrete two-region grid (the small region
is discarded by min_area = 2). -/
theorem claim_C4_witness :
    (⟨2, 2, [(2, 2)]⟩ : LRegion) ∈
      labelRegions 3 3 (fun p =>
        if p = (0, 0) ∨ p = (0, 1) ∨ p = (1, 1) then some 1
        else if p = (2, 2) then some 2 else none) ∧
    prunedLabelOf 2 ⊤ (labelRegions 3 3 (fun p =>
        if p = (0, 0) ∨ p = (0, 1) ∨ p = (1, 1) then some 1
        else if p = (2, 2) then some 2 else none)) (2, 2) = 0 ∧
    keepArea 1 ⊤ 1000000 = true := by
  have hmem : (⟨2, 2, [(2, 2)]⟩ : LRegion) ∈
      labelRegions 3 3 (fun p =>
        if p = (0, 0) ∨ p = (0, 1) ∨ p = (1, 1) then some 1
        else if p = (2, 2) then some 2 else none) := by decide
  have main := claim_C4_area_filter 3 3 (fun p =>
    if p = (0, 0) ∨ p = (0, 1) ∨ p = (1, 1) then some 1
    else if p = (2, 2) then some 2 else none) 2 ⊤ ⟨2, 2, [(2, 2)]⟩ hmem
  have hnot : (⟨2, 2, [(2, 2)]⟩ : LRegion) ∉
      retained 2 ⊤ (labelRegions 3 3 (fun p =>
        if p = (0, 0) ∨ p = (0, 1) ∨ p = (1, 1) then some 1
        else if p = (2, 2) then some 2 else none)) := by decide
  exact ⟨hmem, (main.1.2 hnot).1 (2, 2) (by decide), main.2⟩

/-- Claim C5: for every positive label id L, L appears somewhere in the
pruned label image if and only if the spot table has exactly one row with
label L; and every row's area equals the number of image positions
carrying that row's label in the pruned label image. -/
theorem claim_C5_table_image_invariant (Y X : ℕ) (g : Pos → Option ℕ)
    (minA : ℕ) (maxA : ℕ∞) (L : ℕ) (hL : 0 < L) :
    ((∃ p ∈ positions Y X,
        prunedLabelOf minA maxA (labelRegions Y X g) p = L) ↔
      (spotTable minA maxA (labelRegions Y X g)).countP
        (fun row => decide (row.label = L)) = 1) ∧
    ∀ row ∈ spotTable minA maxA (labelRegions Y X g),
      row.area = ((positions Y X).filter fun q =>
        decide (prunedLabelOf minA maxA (labelRegions Y X g) q =
          row.label)).length := by
  have hg := labelRegions_good Y X g
  constructor
  · constructor
    · rintro ⟨p, _, hlab⟩
      have hne : prunedLabelOf minA maxA (labelRegions Y X g) p ≠ 0 := by
        rw [hlab]
        omega
      obtain ⟨r, hrret, _, hrlab⟩ := exists_region_of_labelOf hne
      have hrL : r.label = L := by
        rw [hrlab]
        exact hlab
      rw [← hrL]
      exact countP_label_eq_one hg hrret
    · intro hcount
      have hpos : 0 < (spotTable minA maxA (labelRegions Y X g)).countP
          (fun row => decide (row.label = L)) := by
        rw [hcount]
        omega
      obtain ⟨row, hrow, hrowlab⟩ := List.countP_pos_iff.mp hpos
      unfold spotTable at hrow
      obtain ⟨r, hrret, rfl⟩ := List.mem_map.mp hrow
      simp only [decide_eq_true_eq] at hrowlab
      have hrrs : r ∈ labelRegions Y X g := (mem_retained_iff.mp hrret).1
      obtain ⟨hnnil, -, hbounds⟩ := hg.2.2 r hrrs
      obtain ⟨p, hp⟩ := List.exists_mem_of_ne_nil _ hnnil
      refine ⟨p, mem_positions.mpr (hbounds p hp), ?_⟩
      rw [prunedLabelOf_eq_label hg hrret hp]
      exact hrowlab
  · intro row hrow
    unfold spotTable at hrow
    obtain ⟨r, hrret, rfl⟩ := List.mem_map.mp hrow
    exact (pixels_filter_length hg hrret).symm

/-- Witness for claim C5 at a concrete grid with one two-pixel region. -/
theorem claim_C5_witness :
    0 < 1 ∧
    (((∃ p ∈ positions 2 2,
        prunedLabelOf 1 ⊤ (labelRegions 2 2 (fun p =>
          if p = (0, 0) ∨ p = (0, 1) then some 3 else none)) p = 1) ↔
      (spotTable 1 ⊤ (labelRegions 2 2 (fun p =>
          if p = (0, 0) ∨ p = (0, 1) then some 3 else none))).countP
        (fun row => decide (row.label = 1)) = 1) ∧
    ∀ row ∈ spotTable 1 ⊤ (labelRegions 2 2 (fun p =>
        if p = (0, 0) ∨ p = (0, 1) then some 3 else none)),
      row.area = ((positions 2 2).filter fun q =>
        decide (prunedLabelOf 1 ⊤ (labelRegions 2 2 (fun p =>
          if p = (0, 0) ∨ p = (0, 1) then some 3 else none)) q =
          row.label)).length) :=
  ⟨Nat.one_pos, claim_C5_table_image_invariant 2 2
    (fun p => if p = (0, 0) ∨ p = (0, 1) then some 3 else none) 1 ⊤ 1
    Nat.one_pos⟩

/-- Claim C8: lowering min_area (all other parameters fixed) never removes
a retained spot — every row of the spot table under min_area is also a row
of the spot table under any smaller min_area. -/
theorem claim_C8_min_area_monotone (Y X : ℕ) (g : Pos → Option ℕ)
    (minA' minA : ℕ) (maxA : ℕ∞) (h : minA' < minA) :
    ∀ row ∈ spotTable minA maxA (labelRegions Y X g),
      row ∈ spotTable minA' maxA (labelRegions Y X g) := by
  intro row hrow
  unfold spotTable at hrow ⊢
  obtain ⟨r, hr, rfl⟩ := List.mem_map.mp hrow
  refine List.mem_map.mpr ⟨r, ?_, rfl⟩
  rw [mem_retained_iff] at hr ⊢
  exact ⟨hr.1, le_trans h.le hr.2.1, hr.2.2⟩

/-- Witness for claim C8: a spot of area 2 retained at min_area = 2 is
also retained at min_area = 1. -/
theorem claim_C8_witness :
    1 < 2 ∧
    (⟨1, 3, 2⟩ : SpotRecord) ∈ spotTable 2 ⊤ (labelRegions 2 2 (fun p =>
      if p = (0, 0) ∨ p = (0, 1) then some 3 else none)) ∧
    (⟨1, 3, 2⟩ : SpotRecord) ∈ spotTable 1 ⊤ (labelRegions 2 2 (fun p =>
      if p = (0, 0) ∨ p = (0, 1) then some 3 else none)) :=
  ⟨by norm_num,
   by decide,
   claim_C8_min_area_monotone 2 2
     (fun p => if p = (0, 0) ∨ p = (0, 1) then some 3 else none) 1 2 ⊤
     (by norm_num) _ (by decide)⟩

/-- Claim C10: every positive label L in the pruned label image satisfies
1 ≤ L ≤ length of the region list, so the notebook's area_lookup indexes
region_properties[L - 1] in bounds; label 0 denotes background and maps to
area 0. -/
theorem claim_C10_area_lookup_in_bounds (Y X : ℕ) (g : Pos → Option ℕ)
    (minA : ℕ) (maxA : ℕ∞) (p : Pos) (L : ℕ)
    (hp : prunedLabelOf minA maxA (labelRegions Y X g) p = L) (hL : 0 < L) :
    (L ≤ (labelRegions Y X g).length ∧
      ∃ hi : L - 1 < (labelRegions Y X g).length,
        area_lookup (labelRegions Y X g) L =
          ((labelRegions Y X g).get ⟨L - 1, hi⟩).pixels.length) ∧
    area_lookup (labelRegions Y X g) 0 = 0 := by
  have hg := labelRegions_good Y X g
  have hne : prunedLabelOf minA maxA (labelRegions Y X g) p ≠ 0 := by
    rw [hp]
    omega
  obtain ⟨r, hrret, -, hrlab⟩ := exists_region_of_labelOf hne
  have hrrs : r ∈ labelRegions Y X g := (mem_retained_iff.mp hrret).1
  obtain ⟨hpos, hle, hi, hget⟩ := label_spec hg hrrs
  have hrL : r.label = L := by
    rw [hrlab]
    exact hp
  refine ⟨⟨by omega, ?_⟩, by unfold area_lookup; simp⟩
  rw [← hrL]
  refine ⟨hi, ?_⟩
  unfold area_lookup
  rw [if_neg (by omega), List.getD_eq_getElem _ _ hi]
  rfl

/-- Witness for claim C10 at a concrete grid. -/
theorem claim_C10_witness :
    prunedLabelOf 1 ⊤ (labelRegions 2 2 (fun p =>
      if p = (0, 0) ∨ p = (0, 1) then some 3 else none)) (0, 0) = 1 ∧
    (1 ≤ (labelRegions 2 2 (fun p =>
        if p = (0, 0) ∨ p = (0, 1) then some 3 else none)).length ∧
      ∃ hi : 1 - 1 < (labelRegions 2 2 (fun p =>
        if p = (0, 0) ∨ p = (0, 1) then some 3 else none)).length,
        area_lookup (labelRegions 2 2 (fun p =>
          if p = (0, 0) ∨ p = (0, 1) then some 3 else none)) 1 =
          ((labelRegions 2 2 (fun p =>
            if p = (0, 0) ∨ p = (0, 1) then some 3 else none)).get
              ⟨1 - 1, hi⟩).pixels.length) ∧
    area_lookup (labelRegions 2 2 (fun p =>
      if p = (0, 0) ∨ p = (0, 1) then some 3 else none)) 0 = 0 := by
  have hp : prunedLabelOf 1 ⊤ (labelRegions 2 2 (fun p =>
      if p = (0, 0) ∨ p = (0, 1) then some 3 else none)) (0, 0) = 1 := by
    decide
  exact ⟨hp, claim_C10_area_lookup_in_bounds 2 2
    (fun p => if p = (0, 0) ∨ p = (0, 1) then some 3 else none) 1 ⊤ (0, 0) 1
    hp Nat.one_pos⟩

lemma rescale_low_unchanged (scale : ℕ × ℕ → ℚ) :
    ∀ (sels : List (ℕ × ℕ)) (st : ScaleState),
      (sels.foldl (rescaleStep scale) st).low_passed = st.low_passed := by
  intro sels
  induction sels with
  | nil => intro st; rfl
  | cons a rest ih =>
    intro st
    rw [List.foldl_cons, ih]
    rfl

lemma rescale_untouched (scale : ℕ × ℕ → ℚ) :
    ∀ (sels : List (ℕ × ℕ)) (st : ScaleState) (s : ℕ × ℕ), s ∉ sels →
      (sels.foldl (rescaleStep scale) st).filtered s = st.filtered s := by
  intro sels
  induction sels with
  | nil => intro st s _; rfl
  | cons a rest ih =>
    intro st s hs
    rw [List.foldl_cons, ih _ _ (fun h => hs (List.mem_cons_of_mem _ h))]
    have hne : ¬s = a := fun h => hs (List.mem_cons.mpr (Or.inl h))
    unfold rescaleStep
    simp only []
    rw [if_neg hne]

lemma rescale_touched (scale : ℕ × ℕ → ℚ) :
    ∀ (sels : List (ℕ × ℕ)), sels.Nodup →
      ∀ (st : ScaleState) (s : ℕ × ℕ), s ∈ sels →
      (sels.foldl (rescaleStep scale) st).filtered s =
        (st.filtered s).map (· / scale s) := by
  intro sels
  induction sels with
  | nil => intro _ st s hs; exact absurd hs (List.not_mem_nil s)
  | cons a rest ih =>
    intro hnd st s hs
    obtain ⟨hanotin, hrestnd⟩ := List.nodup_cons.mp hnd
    rw [List.foldl_cons]
    rcases List.mem_cons.mp hs with hsa | hsrest
    · subst hsa
      rw [rescale_untouched scale rest _ s hanotin]
      unfold rescaleStep
      simp
    · rw [ih hrestnd _ s hsrest]
      have hne : ¬s = a := by
        intro h
        subst h
        exact hanotin hsrest
      unfold rescaleStep
      simp only []
      rw [if_neg hne]

/-- Claim C9: the rescaling stage does not mutate its input — after the
loop over all (round, channel) selectors, the low_passed stack is
unchanged, and only the deep copy filtered_imgs is modified: each selector
slice of the copy equals the corresponding input slice divided by that
selector's scale factor, and slices outside the selector list are left
equal to the input. -/
theorem claim_C9_rescale_is_pure (scale : ℕ × ℕ → ℚ) (low : ℕ × ℕ → List ℚ)
    (sels : List (ℕ × ℕ)) (hsels : sels.Nodup) :
    (rescaleRun scale low sels).low_passed = low ∧
    (∀ sel ∈ sels,
      (rescaleRun scale low sels).filtered sel =
        (low sel).map (· / scale sel)) ∧
    ∀ s, s ∉ sels → (rescaleRun scale low sels).filtered s = low s := by
  refine ⟨rescale_low_unchanged scale sels _, ?_, ?_⟩
  · intro sel hsel
    exact rescale_touched scale sels hsels _ sel hsel
  · intro s hs
    exact rescale_untouched scale sels _ s hs

/-- Witness for claim C9 at a concrete two-selector stack. -/
theorem claim_C9_witness :
    ([((0 : ℕ), (0 : ℕ)), (0, 1)] : List (ℕ × ℕ)).Nodup ∧
    (rescaleRun (fun _ => 2) (fun _ => [2, 4]) [(0, 0), (0, 1)]).low_passed =
      (fun _ => [2, 4]) ∧
    (rescaleRun (fun _ => 2) (fun _ => [2, 4]) [(0, 0), (0, 1)]).filtered
      (0, 0) = [1, 2] := by
  have hnd : ([((0 : ℕ), (0 : ℕ)), (0, 1)] : List (ℕ × ℕ)).Nodup := by decide
  have main := claim_C9_rescale_is_pure (fun _ => 2) (fun _ => [2, 4])
    [(0, 0), (0, 1)] hnd
  refine ⟨hnd, main.1, ?_⟩
  rw [main.2.1 (0, 0) (List.mem_cons_self _ _)]
  norm_num

end Starfish
